import Mathlib

/-!
Shallow embedding of `src/lib/api/normalize.js` (the Draftail content
sanitization pipeline) together with proofs of the specification's
testable properties.

The Draft.js / Immutable.js data structures used by the source are
modelled as plain Lean values:

* `CharacterMetadata` — a character's ordered style set (list of style
  identifiers, no duplicates assumed) and optional entity key.
* `ContentBlock` — block type, depth, text and per-character metadata.
* a block map — an ordered association list from block keys to blocks
  (`Immutable.OrderedMap`); `mergeBlockMap` models `OrderedMap.merge`,
  which replaces the values of existing keys in place and appends
  entries with unknown keys at the end.
* `ContentState` — the block map plus the entity registry (a map from
  entity keys to the entity's type string; entity `data` plays no role
  in the source and is omitted).

`EditorState.set(editorState, { currentContent: content.merge({ blockMap }) })`
only ever replaces the block map, so an editor state is modelled by its
`ContentState` directly.
-/

namespace Draftail

/- Block-type constants from `../api/constants` (module not under `src/`;
the two names are modelled from the spec's "plain/unstyled type" and
"atomic type" — only their identity matters, not the literal strings). -/
namespace BLOCK_TYPE

def UNSTYLED : String := "unstyled"

def ATOMIC : String := "atomic"

end BLOCK_TYPE

/- Entity-type constants from `../api/constants` (module not under `src/`;
modelled from the spec's "image type" and "horizontal-rule type"). -/
namespace ENTITY_TYPE

def IMAGE : String := "IMAGE"

def HORIZONTAL_RULE : String := "HORIZONTAL-RULE"

end ENTITY_TYPE

/-- Draft.js `CharacterMetadata`: an ordered set of inline style names and
an optional entity key (`getEntity()` returns `null` ↦ `none`). -/
structure CharacterMetadata where
  style : List String
  entity : Option Nat
deriving DecidableEq, Repr

/-- Draft.js `ContentBlock`: type, depth, text and character list. -/
structure ContentBlock where
  type : String
  depth : Nat
  text : String
  characterList : List CharacterMetadata
deriving DecidableEq, Repr

/-- An ordered block map: association list from block key to block. -/
abbrev BlockMap := List (String × ContentBlock)

/-- `ContentState`: the ordered block map and the entity registry
(entity key ↦ entity type). -/
structure ContentState where
  blockMap : BlockMap
  entities : List (Nat × String)
deriving DecidableEq, Repr

/-- A block-type / style / entity-type descriptor as passed to
`filterEditorState`; the source only reads its `type` field. -/
structure TypeDescriptor where
  type : String
deriving DecidableEq, Repr

/-- First value stored under a key in an ordered association list. -/
def lookupKey : BlockMap → String → Option ContentBlock
  | [], _ => none
  | p :: rest, k => if p.1 = k then some p.2 else lookupKey rest k

/-- Entity-registry lookup (`contentState.getEntity(key).getType()`). -/
def lookupEntity : List (Nat × String) → Nat → Option String
  | [], _ => none
  | p :: rest, k => if p.1 = k then some p.2 else lookupEntity rest k

/-- `Immutable.OrderedMap.merge`: values of keys already present are
replaced in place; entries with new keys are appended in order. -/
def mergeBlockMap (m upd : BlockMap) : BlockMap :=
  (m.map fun p =>
    match lookupKey upd p.1 with
    | some b => (p.1, b)
    | none => p)
  ++ upd.filter fun p => (lookupKey m p.1).isNone

/-- Type of the entity behind a registry key; the registry is assumed to
contain every referenced key (Draft.js throws otherwise), the empty
string stands for a dangling key and is never an enabled type. -/
def getEntityType (s : ContentState) (entityKey : Nat) : String :=
  (lookupEntity s.entities entityKey).getD ""

/-- `resetBlockDepth` (normalize.js lines 67–84): blocks with
`depth > maxListNesting` get their depth set to `maxListNesting`; if no
block changed the editor state is returned as-is. -/
def resetBlockDepth (editorState : ContentState) (maxListNesting : Nat) : ContentState :=
  let blockMap := editorState.blockMap
  let changedBlocks :=
    (blockMap.filter fun p => decide (maxListNesting < p.2.depth)).map
      fun p => (p.1, { p.2 with depth := maxListNesting })
  if changedBlocks = [] then editorState
  else { editorState with blockMap := mergeBlockMap blockMap changedBlocks }

/-- `resetBlockType` (normalize.js lines 89–106): blocks whose type is not
in `enabledTypes` are reset to the unstyled type. -/
def resetBlockType (editorState : ContentState) (enabledTypes : List String) : ContentState :=
  let blockMap := editorState.blockMap
  let changedBlocks :=
    (blockMap.filter fun p => decide (p.2.type ∉ enabledTypes)).map
      fun p => (p.1, { p.2 with type := BLOCK_TYPE.UNSTYLED })
  if changedBlocks = [] then editorState
  else { editorState with blockMap := mergeBlockMap blockMap changedBlocks }

/-- Per-character effect of `filterInlineStyle`: successive
`CharacterMetadata.removeStyle` of every style not in `enabledTypes`,
i.e. only the enabled styles are kept. -/
def filterStyleChar (enabledTypes : List String) (c : CharacterMetadata) : CharacterMetadata :=
  { c with style := c.style.filter fun t => decide (t ∈ enabledTypes) }

/-- Per-block effect of `filterInlineStyle`: the character list is
replaced only when some character carried a disallowed style
(the source's `altered` flag). -/
def filterStyleBlock (enabledTypes : List String) (b : ContentBlock) : ContentBlock :=
  if ∃ c ∈ b.characterList, ∃ t ∈ c.style, t ∉ enabledTypes then
    { b with characterList := b.characterList.map (filterStyleChar enabledTypes) }
  else b

/-- `filterInlineStyle` (normalize.js lines 111–140). -/
def filterInlineStyle (editorState : ContentState) (enabledTypes : List String) : ContentState :=
  let blockMap := editorState.blockMap
  let blocks := blockMap.map fun p => (p.1, filterStyleBlock enabledTypes p.2)
  { editorState with blockMap := mergeBlockMap blockMap blocks }

/-- `block.getEntityAt(0)`: entity of the character at offset 0, `none`
when the character list is empty. -/
def getEntityAt0 (b : ContentBlock) : Option Nat :=
  match b.characterList.head? with
  | none => none
  | some c => c.entity

/-- The `shouldReset` test of `resetAtomicBlocks`: true when the block's
first character references an entity whose type is not enabled. -/
def atomicShouldReset (s : ContentState) (enabledTypes : List String) (b : ContentBlock) : Bool :=
  match getEntityAt0 b with
  | none => false
  | some entityKey => decide (getEntityType s entityKey ∉ enabledTypes)

/-- Text normalization applied to an atomic block whose text is not the
single placeholder character: `text` becomes `" "` and the character
list is sliced to its first entry. -/
def normaliseAtomic (b : ContentBlock) : ContentBlock :=
  { b with text := " ", characterList := b.characterList.take 1 }

/-- The `normalisedBlocks` collection of `resetAtomicBlocks`. -/
def atomicNormalised (m : BlockMap) : BlockMap :=
  (m.filter fun p => decide (p.2.type = BLOCK_TYPE.ATOMIC ∧ p.2.text ≠ " ")).map
    fun p => (p.1, normaliseAtomic p.2)

/-- The block map after the text-normalization half of
`resetAtomicBlocks` (`blocks` after the first `size !== 0` guard). -/
def atomicNormalisedMap (m : BlockMap) : BlockMap :=
  if atomicNormalised m = [] then m else mergeBlockMap m (atomicNormalised m)

/-- The `resetBlocks` collection of `resetAtomicBlocks`: atomic blocks of
`m` whose first character's entity type is not enabled, retyped to
unstyled. -/
def atomicReset (s : ContentState) (enabledTypes : List String) (m : BlockMap) : BlockMap :=
  ((m.filter fun p => decide (p.2.type = BLOCK_TYPE.ATOMIC)).filter
      fun p => atomicShouldReset s enabledTypes p.2).map
    fun p => (p.1, { p.2 with type := BLOCK_TYPE.UNSTYLED })

/-- `resetAtomicBlocks` (normalize.js lines 146–193). Note that the
second guard merges `resetBlocks` into the original `blockMap`, not into
the accumulated `blocks` — faithfully reproduced from the source. -/
def resetAtomicBlocks (editorState : ContentState) (enabledTypes : List String) : ContentState :=
  let blockMap := editorState.blockMap
  let blocks := atomicNormalisedMap blockMap
  let blocks2 :=
    if atomicReset editorState enabledTypes blocks = [] then blocks
    else mergeBlockMap blockMap (atomicReset editorState enabledTypes blocks)
  { editorState with blockMap := mergeBlockMap blockMap blocks2 }

/-- Per-character effect of `filterEntityType`:
`CharacterMetadata.applyEntity(char, null)` when the referenced entity's
type is not enabled, or when it is the image type and the enclosing
block is not atomic. -/
def filterEntityChar (s : ContentState) (enabledTypes : List String) (blockType : String)
    (c : CharacterMetadata) : CharacterMetadata :=
  match c.entity with
  | none => c
  | some entityKey =>
      if getEntityType s entityKey ∉ enabledTypes ∨
          (getEntityType s entityKey = ENTITY_TYPE.IMAGE ∧ blockType ≠ BLOCK_TYPE.ATOMIC) then
        { c with entity := none }
      else c

/-- Per-block effect of `filterEntityType`: character list replaced only
when some character's entity reference is cleared (the `altered` flag). -/
def filterEntityBlock (s : ContentState) (enabledTypes : List String) (b : ContentBlock) :
    ContentBlock :=
  if ∃ c ∈ b.characterList, filterEntityChar s enabledTypes b.type c ≠ c then
    { b with characterList := b.characterList.map (filterEntityChar s enabledTypes b.type) }
  else b

/-- `filterEntityType` (normalize.js lines 198–249). -/
def filterEntityType (editorState : ContentState) (enabledTypes : List String) : ContentState :=
  let blockMap := editorState.blockMap
  let blocks := blockMap.map fun p => (p.1, filterEntityBlock editorState enabledTypes p.2)
  { editorState with blockMap := mergeBlockMap blockMap blocks }

/-- `enabledBlockTypes` as derived in `filterEditorState`: the
descriptors' types plus the always-enabled unstyled and atomic types. -/
def enabledBlockTypesOf (blockTypes : List TypeDescriptor) : List String :=
  blockTypes.map (fun t => t.type) ++ [BLOCK_TYPE.UNSTYLED, BLOCK_TYPE.ATOMIC]

/-- `enabledEntityTypes` as derived in `filterEditorState`: the
descriptors' types, with the horizontal-rule type pushed when
`enableHorizontalRule` is set. -/
def enabledEntityTypesOf (entityTypes : List TypeDescriptor) (enableHorizontalRule : Bool) :
    List String :=
  entityTypes.map (fun t => t.type) ++
    (if enableHorizontalRule then [ENTITY_TYPE.HORIZONTAL_RULE] else [])

/-- `filterEditorState` (normalize.js lines 17–62): the five-stage
sanitization pipeline. -/
def filterEditorState (editorState : ContentState) (maxListNesting : Nat)
    (enableHorizontalRule : Bool)
    (blockTypes inlineStyles entityTypes : List TypeDescriptor) : ContentState :=
  let enabledBlockTypes := enabledBlockTypesOf blockTypes
  let enabledInlineStyles := inlineStyles.map fun t => t.type
  let enabledEntityTypes := enabledEntityTypesOf entityTypes enableHorizontalRule
  filterEntityType
    (resetAtomicBlocks
      (filterInlineStyle
        (resetBlockType (resetBlockDepth editorState maxListNesting) enabledBlockTypes)
        enabledInlineStyles)
      enabledEntityTypes)
    enabledEntityTypes

/-! ### Spec §8 properties as predicates on a content state -/

/-- Depth bound: every block's depth is at most `maxListNesting`. -/
abbrev depthOk (maxListNesting : Nat) (s : ContentState) : Prop :=
  ∀ p ∈ s.blockMap, p.2.depth ≤ maxListNesting

/-- Type closure: every block's type belongs to `enabledTypes`. -/
abbrev typesOk (enabledTypes : List String) (s : ContentState) : Prop :=
  ∀ p ∈ s.blockMap, p.2.type ∈ enabledTypes

/-- Style closure: every character's styles lie in `enabledTypes`. -/
abbrev stylesOk (enabledTypes : List String) (s : ContentState) : Prop :=
  ∀ p ∈ s.blockMap, ∀ c ∈ p.2.characterList, ∀ t ∈ c.style, t ∈ enabledTypes

/-- Entity closure: every referenced entity's type lies in `enabledTypes`. -/
abbrev entitiesOk (enabledTypes : List String) (s : ContentState) : Prop :=
  ∀ p ∈ s.blockMap, ∀ c ∈ p.2.characterList, ∀ k ∈ c.entity,
    getEntityType s k ∈ enabledTypes

/-- Image containment: no character of a non-atomic block references an
image-type entity. -/
abbrev imagesOk (s : ContentState) : Prop :=
  ∀ p ∈ s.blockMap, p.2.type ≠ BLOCK_TYPE.ATOMIC →
    ∀ c ∈ p.2.characterList, ∀ k ∈ c.entity, getEntityType s k ≠ ENTITY_TYPE.IMAGE

/-- Data-model invariant (spec §3): one character-metadata entry per text
position. -/
abbrev lenOk (s : ContentState) : Prop :=
  ∀ p ∈ s.blockMap, p.2.characterList.length = p.2.text.length

/-- Atomic shape exactly as §8 words it: text of length 1 and exactly one
character-metadata entry. -/
abbrev atomicShapeLen (s : ContentState) : Prop :=
  ∀ p ∈ s.blockMap, p.2.type = BLOCK_TYPE.ATOMIC →
    p.2.text.length = 1 ∧ p.2.characterList.length = 1

/-- Strengthened atomic shape: the text of an atomic block is exactly the
single placeholder character (what `resetAtomicBlocks` actually tests). -/
abbrev atomicPlaceholder (s : ContentState) : Prop :=
  ∀ p ∈ s.blockMap, p.2.type = BLOCK_TYPE.ATOMIC → p.2.text = " "

/-! ### Sample snapshots used by witnesses and counterexamples -/

/-- Two atomic blocks: one with garbled empty text and no entity, one
well-shaped but holding a disallowed entity.  Exhibits the lost text
normalization in `resetAtomicBlocks`. -/
def sampleMixed : ContentState :=
  { blockMap :=
      [("a", { type := BLOCK_TYPE.ATOMIC, depth := 0, text := "", characterList := [] }),
       ("b", { type := BLOCK_TYPE.ATOMIC, depth := 0, text := " ",
               characterList := [{ style := [], entity := some 1 }] })],
    entities := [(1, "EMBED")] }

/-- A single atomic block whose text has length 1 but is not the
placeholder character. -/
def sampleAtomicX : ContentState :=
  { blockMap :=
      [("a", { type := BLOCK_TYPE.ATOMIC, depth := 0, text := "x",
               characterList := [{ style := [], entity := none }] })],
    entities := [] }

/-- A single atomic block with empty text and an empty character list. -/
def sampleAtomicEmpty : ContentState :=
  { blockMap :=
      [("a", { type := BLOCK_TYPE.ATOMIC, depth := 0, text := "", characterList := [] })],
    entities := [] }

/-- A snapshot already satisfying every closure, on which the pipeline is
a no-op. -/
def sampleClean : ContentState :=
  { blockMap :=
      [("a", { type := BLOCK_TYPE.UNSTYLED, depth := 0, text := "hi",
               characterList :=
                 [{ style := ["BOLD"], entity := none }, { style := [], entity := none }] }),
       ("b", { type := BLOCK_TYPE.ATOMIC, depth := 0, text := " ",
               characterList := [{ style := [], entity := some 3 }] })],
    entities := [(3, "LINK")] }

/-- A snapshot exercising all five stages at once: excessive depth, a
disallowed block type, a disallowed style, an inline image entity and a
disallowed entity. -/
def sampleRich : ContentState :=
  { blockMap :=
      [("a", { type := "header-two", depth := 5, text := "ab",
               characterList :=
                 [{ style := ["BOLD", "STRIKE"], entity := some 2 },
                  { style := [], entity := some 1 }] }),
       ("b", { type := BLOCK_TYPE.ATOMIC, depth := 0, text := " ",
               characterList := [{ style := [], entity := some 2 }] }),
       ("c", { type := BLOCK_TYPE.UNSTYLED, depth := 1, text := "x",
               characterList := [{ style := ["BOLD"], entity := some 3 }] })],
    entities := [(1, "EMBED"), (2, "IMAGE"), (3, "LINK")] }

/-- A garbled atomic block (two characters of text) used to exhibit the
text-normalization rewrite. -/
def sampleBlock : ContentBlock :=
  { type := BLOCK_TYPE.ATOMIC, depth := 0, text := "ab",
    characterList := [{ style := [], entity := none }, { style := [], entity := none }] }

/-! ### Association-list and merge lemmas -/

theorem lookupKey_isSome_iff {m : BlockMap} {k : String} :
    (lookupKey m k).isSome ↔ ∃ p ∈ m, p.1 = k := by
  induction m with
  | nil => simp [lookupKey]
  | cons r rest ih =>
    by_cases hr : r.1 = k
    · constructor
      · intro _
        exact ⟨r, List.mem_cons_self _ _, hr⟩
      · intro _
        simp [lookupKey, hr]
    · rw [show lookupKey (r :: rest) k = lookupKey rest k by simp [lookupKey, hr], ih]
      constructor
      · rintro ⟨p, hp, hk⟩
        exact ⟨p, List.mem_cons_of_mem _ hp, hk⟩
      · rintro ⟨p, hp, hk⟩
        rcases List.mem_cons.1 hp with hp | hp
        · exact absurd (hp ▸ hk) hr
        · exact ⟨p, hp, hk⟩

theorem lookupKey_eq_none_iff {m : BlockMap} {k : String} :
    lookupKey m k = none ↔ ∀ p ∈ m, p.1 ≠ k := by
  rw [← Option.not_isSome_iff_eq_none, lookupKey_isSome_iff]
  push_neg
  rfl

theorem mem_of_lookupKey_eq_some {m : BlockMap} {k : String} {b : ContentBlock}
    (h : lookupKey m k = some b) : (k, b) ∈ m := by
  induction m with
  | nil => simp [lookupKey] at h
  | cons r rest ih =>
    by_cases hr : r.1 = k
    · simp [lookupKey, hr] at h
      subst hr h
      exact List.mem_cons_self _ _
    · simp [lookupKey, hr] at h
      exact List.mem_cons_of_mem _ (ih h)

theorem mergeBlockMap_mem_cases {m upd : BlockMap} {p : String × ContentBlock}
    (h : p ∈ mergeBlockMap m upd) :
    p ∈ upd ∨ (p ∈ m ∧ lookupKey upd p.1 = none) := by
  unfold mergeBlockMap at h
  rcases List.mem_append.1 h with h | h
  · rcases List.mem_map.1 h with ⟨q, hq, hqe⟩
    rcases hlook : lookupKey upd q.1 with _ | b
    · rw [hlook] at hqe
      right
      exact ⟨hqe ▸ hq, hqe ▸ hlook⟩
    · rw [hlook] at hqe
      left
      subst hqe
      exact mem_of_lookupKey_eq_some hlook
  · exact Or.inl (List.mem_of_mem_filter h)

theorem keys_mergeBlockMap {m upd : BlockMap}
    (h : ∀ p ∈ upd, ∃ q ∈ m, q.1 = p.1) :
    (mergeBlockMap m upd).map Prod.fst = m.map Prod.fst := by
  unfold mergeBlockMap
  have hfil : (upd.filter fun p => (lookupKey m p.1).isNone) = [] := by
    rw [List.filter_eq_nil_iff]
    intro p hp
    rcases h p hp with ⟨q, hq, hk⟩
    have hsome : (lookupKey m p.1).isSome := lookupKey_isSome_iff.2 ⟨q, hq, hk⟩
    simp only [Option.isNone_iff_eq_none]
    exact Option.ne_none_iff_isSome.2 hsome
  rw [hfil, List.append_nil, List.map_map]
  apply List.map_congr_left
  intro p _
  rcases hlk : lookupKey upd p.1 with _ | b <;> simp [hlk]

theorem key_inj {m : BlockMap} (hnd : (m.map Prod.fst).Nodup)
    {p q : String × ContentBlock} (hp : p ∈ m) (hq : q ∈ m) (hk : p.1 = q.1) : p = q := by
  induction m with
  | nil => simp at hp
  | cons r rest ih =>
    rw [List.map_cons, List.nodup_cons] at hnd
    rcases List.mem_cons.1 hp with hp | hp <;> rcases List.mem_cons.1 hq with hq | hq
    · rw [hp, hq]
    · exact absurd (List.mem_map.2 ⟨q, hq, (hp ▸ hk).symm⟩) hnd.1
    · exact absurd (List.mem_map.2 ⟨p, hp, hq ▸ hk⟩) hnd.1
    · exact ih hnd.2 hp hq

theorem lookupKey_of_mem_nodup {m : BlockMap} (hnd : (m.map Prod.fst).Nodup)
    {q : String × ContentBlock} (hq : q ∈ m) : lookupKey m q.1 = some q.2 := by
  induction m with
  | nil => simp at hq
  | cons r rest ih =>
    rw [List.map_cons, List.nodup_cons] at hnd
    rcases List.mem_cons.1 hq with hq | hq
    · subst hq
      simp [lookupKey]
    · have hne : r.1 ≠ q.1 := fun h => hnd.1 (List.mem_map.2 ⟨q, hq, h.symm⟩)
      simp [lookupKey, hne]
      exact ih hnd.2 hq

theorem keys_filterMap {m : BlockMap} (q : String × ContentBlock → Bool)
    (f : String × ContentBlock → ContentBlock) :
    ((m.filter q).map fun r => (r.1, f r)).map Prod.fst = (m.filter q).map Prod.fst := by
  rw [List.map_map]
  rfl

theorem lookupKey_filterMap_of_pos {m : BlockMap} (hnd : (m.map Prod.fst).Nodup)
    {q : String × ContentBlock → Bool} {f : String × ContentBlock → ContentBlock}
    {p : String × ContentBlock} (hp : p ∈ m) (hq : q p = true) :
    lookupKey ((m.filter q).map fun r => (r.1, f r)) p.1 = some (f p) := by
  have hnd2 : (((m.filter q).map fun r => (r.1, f r)).map Prod.fst).Nodup := by
    rw [keys_filterMap]
    exact hnd.sublist (List.Sublist.map _ (List.filter_sublist m))
  have hmem : (p.1, f p) ∈ (m.filter q).map fun r => (r.1, f r) :=
    List.mem_map.2 ⟨p, List.mem_filter.2 ⟨hp, hq⟩, rfl⟩
  exact lookupKey_of_mem_nodup hnd2 hmem

theorem lookupKey_filterMap_of_neg {m : BlockMap} (hnd : (m.map Prod.fst).Nodup)
    {q : String × ContentBlock → Bool} {f : String × ContentBlock → ContentBlock}
    {p : String × ContentBlock} (hp : p ∈ m) (hq : q p = false) :
    lookupKey ((m.filter q).map fun r => (r.1, f r)) p.1 = none := by
  rw [lookupKey_eq_none_iff]
  intro e he
  rcases List.mem_map.1 he with ⟨r, hr, hre⟩
  have hrm : r ∈ m := List.mem_of_mem_filter hr
  intro hek
  have hkey : r.1 = p.1 := by rw [← hre] at hek; exact hek
  have : r = p := key_inj hnd hrm hp hkey
  subst this
  rw [List.mem_filter] at hr
  rw [hq] at hr
  exact Bool.false_ne_true hr.2

theorem exists_key_of_keys_eq {l m : BlockMap} (h : l.map Prod.fst = m.map Prod.fst)
    {p : String × ContentBlock} (hp : p ∈ l) : ∃ q ∈ m, q.1 = p.1 := by
  have hmem : p.1 ∈ m.map Prod.fst := h ▸ List.mem_map.2 ⟨p, hp, rfl⟩
  rcases List.mem_map.1 hmem with ⟨q, hq, hqe⟩
  exact ⟨q, hq, hqe⟩

theorem lookupKey_map_isSome {m : BlockMap} (g : String × ContentBlock → ContentBlock)
    {p : String × ContentBlock} (hp : p ∈ m) :
    (lookupKey (m.map fun r => (r.1, g r)) p.1).isSome :=
  lookupKey_isSome_iff.2 ⟨(p.1, g p), List.mem_map.2 ⟨p, hp, rfl⟩, rfl⟩

/-! ### Per-stage facts: entity registry, keys, block provenance -/

theorem resetBlockDepth_entities (s : ContentState) (maxL : Nat) :
    (resetBlockDepth s maxL).entities = s.entities := by
  simp only [resetBlockDepth]
  split <;> rfl

theorem resetBlockType_entities (s : ContentState) (ts : List String) :
    (resetBlockType s ts).entities = s.entities := by
  simp only [resetBlockType]
  split <;> rfl

theorem filterInlineStyle_entities (s : ContentState) (ts : List String) :
    (filterInlineStyle s ts).entities = s.entities := rfl

theorem resetAtomicBlocks_entities (s : ContentState) (ts : List String) :
    (resetAtomicBlocks s ts).entities = s.entities := rfl

theorem filterEntityType_entities (s : ContentState) (ts : List String) :
    (filterEntityType s ts).entities = s.entities := rfl

theorem filterEditorState_entities (s : ContentState) (maxL : Nat) (hr : Bool)
    (bt is et : List TypeDescriptor) :
    (filterEditorState s maxL hr bt is et).entities = s.entities := by
  unfold filterEditorState
  rw [filterEntityType_entities, resetAtomicBlocks_entities, filterInlineStyle_entities,
    resetBlockType_entities, resetBlockDepth_entities]

theorem resetBlockDepth_keys (s : ContentState) (maxL : Nat) :
    (resetBlockDepth s maxL).blockMap.map Prod.fst = s.blockMap.map Prod.fst := by
  simp only [resetBlockDepth]
  split
  · rfl
  · apply keys_mergeBlockMap
    intro p hp
    rcases List.mem_map.1 hp with ⟨r, hr, hre⟩
    exact ⟨r, List.mem_of_mem_filter hr, by rw [← hre]⟩

theorem resetBlockType_keys (s : ContentState) (ts : List String) :
    (resetBlockType s ts).blockMap.map Prod.fst = s.blockMap.map Prod.fst := by
  simp only [resetBlockType]
  split
  · rfl
  · apply keys_mergeBlockMap
    intro p hp
    rcases List.mem_map.1 hp with ⟨r, hr, hre⟩
    exact ⟨r, List.mem_of_mem_filter hr, by rw [← hre]⟩

theorem filterInlineStyle_keys (s : ContentState) (ts : List String) :
    (filterInlineStyle s ts).blockMap.map Prod.fst = s.blockMap.map Prod.fst := by
  simp only [filterInlineStyle]
  apply keys_mergeBlockMap
  intro p hp
  rcases List.mem_map.1 hp with ⟨r, hr, hre⟩
  exact ⟨r, hr, by rw [← hre]⟩

theorem atomicNormalisedMap_keys (m : BlockMap) :
    (atomicNormalisedMap m).map Prod.fst = m.map Prod.fst := by
  simp only [atomicNormalisedMap]
  split
  · rfl
  · apply keys_mergeBlockMap
    intro p hp
    simp only [atomicNormalised] at hp
    rcases List.mem_map.1 hp with ⟨r, hr, hre⟩
    exact ⟨r, List.mem_of_mem_filter hr, by rw [← hre]⟩

theorem atomicReset_key_sub (s : ContentState) (ts : List String) (l : BlockMap)
    {p : String × ContentBlock} (hp : p ∈ atomicReset s ts l) : ∃ q ∈ l, q.1 = p.1 := by
  simp only [atomicReset] at hp
  rcases List.mem_map.1 hp with ⟨r, hr, hre⟩
  exact ⟨r, List.mem_of_mem_filter (List.mem_of_mem_filter hr), by rw [← hre]⟩

theorem resetAtomicBlocks_keys (s : ContentState) (ts : List String) :
    (resetAtomicBlocks s ts).blockMap.map Prod.fst = s.blockMap.map Prod.fst := by
  simp only [resetAtomicBlocks]
  apply keys_mergeBlockMap
  intro p hp
  split at hp
  · exact exists_key_of_keys_eq (atomicNormalisedMap_keys s.blockMap) hp
  · rcases mergeBlockMap_mem_cases hp with h | h
    · rcases atomicReset_key_sub s ts _ h with ⟨q, hq, hqe⟩
      rcases exists_key_of_keys_eq (atomicNormalisedMap_keys s.blockMap) hq with ⟨q2, hq2, hq2e⟩
      exact ⟨q2, hq2, by rw [hq2e, hqe]⟩
    · exact ⟨p, h.1, rfl⟩

theorem filterEntityType_keys (s : ContentState) (ts : List String) :
    (filterEntityType s ts).blockMap.map Prod.fst = s.blockMap.map Prod.fst := by
  simp only [filterEntityType]
  apply keys_mergeBlockMap
  intro p hp
  rcases List.mem_map.1 hp with ⟨r, hr, hre⟩
  exact ⟨r, hr, by rw [← hre]⟩

theorem resetBlockDepth_provenance {s : ContentState} {maxL : Nat}
    {p : String × ContentBlock} (hp : p ∈ (resetBlockDepth s maxL).blockMap) :
    ∃ r ∈ s.blockMap, p.2 = r.2 ∨ p.2 = { r.2 with depth := maxL } := by
  simp only [resetBlockDepth] at hp
  split at hp
  · exact ⟨p, hp, Or.inl rfl⟩
  · rcases mergeBlockMap_mem_cases hp with h | h
    · rcases List.mem_map.1 h with ⟨r, hr, hre⟩
      exact ⟨r, List.mem_of_mem_filter hr, Or.inr (by rw [← hre])⟩
    · exact ⟨p, h.1, Or.inl rfl⟩

theorem resetBlockType_provenance {s : ContentState} {ts : List String}
    {p : String × ContentBlock} (hp : p ∈ (resetBlockType s ts).blockMap) :
    ∃ r ∈ s.blockMap, p.2 = r.2 ∨ p.2 = { r.2 with type := BLOCK_TYPE.UNSTYLED } := by
  simp only [resetBlockType] at hp
  split at hp
  · exact ⟨p, hp, Or.inl rfl⟩
  · rcases mergeBlockMap_mem_cases hp with h | h
    · rcases List.mem_map.1 h with ⟨r, hr, hre⟩
      exact ⟨r, List.mem_of_mem_filter hr, Or.inr (by rw [← hre])⟩
    · exact ⟨p, h.1, Or.inl rfl⟩

theorem filterInlineStyle_provenance {s : ContentState} {ts : List String}
    {p : String × ContentBlock} (hp : p ∈ (filterInlineStyle s ts).blockMap) :
    ∃ r ∈ s.blockMap, p.2 = filterStyleBlock ts r.2 := by
  simp only [filterInlineStyle] at hp
  rcases mergeBlockMap_mem_cases hp with h | h
  · rcases List.mem_map.1 h with ⟨r, hr, hre⟩
    exact ⟨r, hr, by rw [← hre]⟩
  · exact absurd h.2 (by
      rw [← Option.not_isSome_iff_eq_none, not_not]
      exact lookupKey_map_isSome _ h.1)

theorem filterEntityType_provenance {s : ContentState} {ts : List String}
    {p : String × ContentBlock} (hp : p ∈ (filterEntityType s ts).blockMap) :
    ∃ r ∈ s.blockMap, p.2 = filterEntityBlock s ts r.2 := by
  simp only [filterEntityType] at hp
  rcases mergeBlockMap_mem_cases hp with h | h
  · rcases List.mem_map.1 h with ⟨r, hr, hre⟩
    exact ⟨r, hr, by rw [← hre]⟩
  · exact absurd h.2 (by
      rw [← Option.not_isSome_iff_eq_none, not_not]
      exact lookupKey_map_isSome _ h.1)

theorem atomicNormalisedMap_provenance {m : BlockMap}
    {p : String × ContentBlock} (hp : p ∈ atomicNormalisedMap m) :
    ∃ r ∈ m, p.2 = r.2 ∨ p.2 = normaliseAtomic r.2 := by
  simp only [atomicNormalisedMap] at hp
  split at hp
  · exact ⟨p, hp, Or.inl rfl⟩
  · rcases mergeBlockMap_mem_cases hp with h | h
    · unfold atomicNormalised at h
      rcases List.mem_map.1 h with ⟨r, hr, hre⟩
      exact ⟨r, List.mem_of_mem_filter hr, Or.inr (by rw [← hre])⟩
    · exact ⟨p, h.1, Or.inl rfl⟩

theorem atomicReset_provenance {s : ContentState} {ts : List String} {l : BlockMap}
    {p : String × ContentBlock} (hp : p ∈ atomicReset s ts l) :
    ∃ r ∈ l, p.2 = { r.2 with type := BLOCK_TYPE.UNSTYLED } := by
  simp only [atomicReset] at hp
  rcases List.mem_map.1 hp with ⟨r, hr, hre⟩
  exact ⟨r, List.mem_of_mem_filter (List.mem_of_mem_filter hr), by rw [← hre]⟩

theorem resetAtomicBlocks_provenance {s : ContentState} {ts : List String}
    {p : String × ContentBlock} (hp : p ∈ (resetAtomicBlocks s ts).blockMap) :
    ∃ r ∈ s.blockMap, p.2 = r.2 ∨ p.2 = normaliseAtomic r.2 ∨
      p.2 = { r.2 with type := BLOCK_TYPE.UNSTYLED } ∨
      p.2 = { normaliseAtomic r.2 with type := BLOCK_TYPE.UNSTYLED } := by
  simp only [resetAtomicBlocks] at hp
  rcases mergeBlockMap_mem_cases hp with h | h
  · split at h
    · rcases atomicNormalisedMap_provenance h with ⟨r, hr, hcase⟩
      exact ⟨r, hr, hcase.imp id Or.inl⟩
    · rcases mergeBlockMap_mem_cases h with h2 | h2
      · rcases atomicReset_provenance h2 with ⟨q, hq, hqe⟩
        rcases atomicNormalisedMap_provenance hq with ⟨r, hr, hcase⟩
        rcases hcase with hcase | hcase
        · exact ⟨r, hr, Or.inr (Or.inr (Or.inl (by rw [hqe, hcase])))⟩
        · exact ⟨r, hr, Or.inr (Or.inr (Or.inr (by rw [hqe, hcase])))⟩
      · exact ⟨p, h2.1, Or.inl rfl⟩
  · exact ⟨p, h.1, Or.inl rfl⟩

/-! ### Characterizations of the per-character and per-block rewrites -/

theorem filterStyleChar_style_mem (ts : List String) (c : CharacterMetadata) (t : String) :
    t ∈ (filterStyleChar ts c).style ↔ t ∈ c.style ∧ t ∈ ts := by
  simp [filterStyleChar, List.mem_filter]

theorem filterStyleChar_entity (ts : List String) (c : CharacterMetadata) :
    (filterStyleChar ts c).entity = c.entity := rfl

theorem filterStyleChar_of_allowed {ts : List String} {c : CharacterMetadata}
    (h : ∀ t ∈ c.style, t ∈ ts) : filterStyleChar ts c = c := by
  have hf : (c.style.filter fun t => decide (t ∈ ts)) = c.style := by
    rw [List.filter_eq_self]
    intro t ht
    simpa using h t ht
  cases c
  simp [filterStyleChar] at hf ⊢
  exact hf

theorem filterStyleBlock_characterList (ts : List String) (b : ContentBlock) :
    (filterStyleBlock ts b).characterList = b.characterList.map (filterStyleChar ts) := by
  simp only [filterStyleBlock]
  split
  · rfl
  · next h =>
    push_neg at h
    have hall : ∀ c ∈ b.characterList, filterStyleChar ts c = c := fun c hc =>
      filterStyleChar_of_allowed (h c hc)
    rw [List.map_congr_left hall, List.map_id']

theorem filterStyleBlock_type (ts : List String) (b : ContentBlock) :
    (filterStyleBlock ts b).type = b.type := by
  simp only [filterStyleBlock]
  split <;> rfl

theorem filterStyleBlock_depth (ts : List String) (b : ContentBlock) :
    (filterStyleBlock ts b).depth = b.depth := by
  simp only [filterStyleBlock]
  split <;> rfl

theorem filterStyleBlock_text (ts : List String) (b : ContentBlock) :
    (filterStyleBlock ts b).text = b.text := by
  simp only [filterStyleBlock]
  split <;> rfl

theorem normaliseAtomic_type (b : ContentBlock) : (normaliseAtomic b).type = b.type := rfl

theorem normaliseAtomic_depth (b : ContentBlock) : (normaliseAtomic b).depth = b.depth := rfl

theorem filterEntityChar_style (s : ContentState) (ts : List String) (bt : String)
    (c : CharacterMetadata) : (filterEntityChar s ts bt c).style = c.style := by
  cases c with
  | mk style entity =>
    cases entity with
    | none => rfl
    | some k =>
      simp only [filterEntityChar]
      split <;> rfl

theorem filterEntityChar_entity_some {s : ContentState} {ts : List String} {bt : String}
    {c : CharacterMetadata} {k : Nat}
    (h : (filterEntityChar s ts bt c).entity = some k) :
    c.entity = some k ∧ getEntityType s k ∈ ts ∧
      (getEntityType s k = ENTITY_TYPE.IMAGE → bt = BLOCK_TYPE.ATOMIC) := by
  cases hc : c.entity with
  | none =>
    rw [show filterEntityChar s ts bt c = c by simp only [filterEntityChar, hc], hc] at h
    exact absurd h (by simp)
  | some k2 =>
    simp only [filterEntityChar, hc] at h
    split at h
    · exact absurd h (by simp)
    · next hcond =>
      push_neg at hcond
      rw [hc] at h
      cases h
      exact ⟨rfl, hcond.1, hcond.2⟩

theorem filterEntityChar_clears {s : ContentState} {ts : List String} {bt : String}
    {c : CharacterMetadata} {k : Nat} (hc : c.entity = some k)
    (hdis : getEntityType s k ∉ ts) : (filterEntityChar s ts bt c).entity = none := by
  simp only [filterEntityChar, hc]
  rw [if_pos (Or.inl hdis)]

theorem filterEntityChar_clears_image {s : ContentState} {ts : List String} {bt : String}
    {c : CharacterMetadata} {k : Nat} (hc : c.entity = some k)
    (himg : getEntityType s k = ENTITY_TYPE.IMAGE) (hbt : bt ≠ BLOCK_TYPE.ATOMIC) :
    (filterEntityChar s ts bt c).entity = none := by
  simp only [filterEntityChar, hc]
  rw [if_pos (Or.inr ⟨himg, hbt⟩)]

theorem filterEntityChar_of_ok {s : ContentState} {ts : List String} {bt : String}
    {c : CharacterMetadata}
    (h : ∀ k ∈ c.entity, getEntityType s k ∈ ts ∧
      (getEntityType s k = ENTITY_TYPE.IMAGE → bt = BLOCK_TYPE.ATOMIC)) :
    filterEntityChar s ts bt c = c := by
  cases hc : c.entity with
  | none => simp only [filterEntityChar, hc]
  | some k =>
    have hk := h k (by rw [hc]; rfl)
    simp only [filterEntityChar, hc]
    rw [if_neg]
    push_neg
    exact hk

theorem filterEntityBlock_characterList (s : ContentState) (ts : List String) (b : ContentBlock) :
    (filterEntityBlock s ts b).characterList =
      b.characterList.map (filterEntityChar s ts b.type) := by
  simp only [filterEntityBlock]
  split
  · rfl
  · next h =>
    push_neg at h
    rw [List.map_congr_left h, List.map_id']

theorem filterEntityBlock_type (s : ContentState) (ts : List String) (b : ContentBlock) :
    (filterEntityBlock s ts b).type = b.type := by
  simp only [filterEntityBlock]
  split <;> rfl

theorem filterEntityBlock_depth (s : ContentState) (ts : List String) (b : ContentBlock) :
    (filterEntityBlock s ts b).depth = b.depth := by
  simp only [filterEntityBlock]
  split <;> rfl

theorem filterEntityBlock_text (s : ContentState) (ts : List String) (b : ContentBlock) :
    (filterEntityBlock s ts b).text = b.text := by
  simp only [filterEntityBlock]
  split <;> rfl

theorem filterEntityBlock_char_ok (s : ContentState) (ts : List String) (b : ContentBlock) :
    ∀ c ∈ (filterEntityBlock s ts b).characterList, ∀ k ∈ c.entity,
      getEntityType s k ∈ ts ∧
        (getEntityType s k = ENTITY_TYPE.IMAGE → b.type = BLOCK_TYPE.ATOMIC) := by
  intro c hc k hk
  rw [filterEntityBlock_characterList] at hc
  rcases List.mem_map.1 hc with ⟨c0, hc0, hce⟩
  have hsome : (filterEntityChar s ts b.type c0).entity = some k := by
    rw [hce]
    exact Option.mem_def.1 hk
  have h := filterEntityChar_entity_some hsome
  exact ⟨h.2.1, h.2.2⟩

/-! ### Establishment and preservation of the closures, stage by stage -/

theorem depthOk_resetBlockDepth (s : ContentState) (maxL : Nat) :
    depthOk maxL (resetBlockDepth s maxL) := by
  intro p hp
  simp only [resetBlockDepth] at hp
  split at hp
  · next hempty =>
    have hfil : (s.blockMap.filter fun p => decide (maxL < p.2.depth)) = [] :=
      List.map_eq_nil_iff.1 hempty
    have := List.filter_eq_nil_iff.1 hfil p hp
    simpa using this
  · rcases mergeBlockMap_mem_cases hp with h | h
    · rcases List.mem_map.1 h with ⟨r, hr, hre⟩
      rw [← hre]
    · by_contra hgt
      push_neg at hgt
      have hmem : (p.1, { p.2 with depth := maxL }) ∈
          (s.blockMap.filter fun p => decide (maxL < p.2.depth)).map
            (fun p => (p.1, { p.2 with depth := maxL })) :=
        List.mem_map.2 ⟨p, List.mem_filter.2 ⟨h.1, by simpa using hgt⟩, rfl⟩
      have hsome : (lookupKey ((s.blockMap.filter fun p => decide (maxL < p.2.depth)).map
          (fun p => (p.1, { p.2 with depth := maxL }))) p.1).isSome :=
        lookupKey_isSome_iff.2 ⟨_, hmem, rfl⟩
      rw [h.2] at hsome
      simp at hsome

theorem typesOk_resetBlockType {s : ContentState} {ts : List String}
    (hU : BLOCK_TYPE.UNSTYLED ∈ ts) : typesOk ts (resetBlockType s ts) := by
  intro p hp
  simp only [resetBlockType] at hp
  split at hp
  · next hempty =>
    have hfil : (s.blockMap.filter fun p => decide (p.2.type ∉ ts)) = [] :=
      List.map_eq_nil_iff.1 hempty
    have := List.filter_eq_nil_iff.1 hfil p hp
    simpa using this
  · rcases mergeBlockMap_mem_cases hp with h | h
    · rcases List.mem_map.1 h with ⟨r, hr, hre⟩
      rw [← hre]
      exact hU
    · by_contra hmemn
      have hmem : (p.1, { p.2 with type := BLOCK_TYPE.UNSTYLED }) ∈
          (s.blockMap.filter fun p => decide (p.2.type ∉ ts)).map
            (fun p => (p.1, { p.2 with type := BLOCK_TYPE.UNSTYLED })) :=
        List.mem_map.2 ⟨p, List.mem_filter.2 ⟨h.1, by simpa using hmemn⟩, rfl⟩
      have hsome : (lookupKey ((s.blockMap.filter fun p => decide (p.2.type ∉ ts)).map
          (fun p => (p.1, { p.2 with type := BLOCK_TYPE.UNSTYLED }))) p.1).isSome :=
        lookupKey_isSome_iff.2 ⟨_, hmem, rfl⟩
      rw [h.2] at hsome
      simp at hsome

theorem stylesOk_filterInlineStyle (s : ContentState) (ts : List String) :
    stylesOk ts (filterInlineStyle s ts) := by
  intro p hp c hc t ht
  rcases filterInlineStyle_provenance hp with ⟨r, hr, hpe⟩
  rw [hpe, filterStyleBlock_characterList] at hc
  rcases List.mem_map.1 hc with ⟨c0, hc0, hce⟩
  rw [← hce] at ht
  exact ((filterStyleChar_style_mem ts c0 t).1 ht).2

theorem entitiesOk_filterEntityType (s : ContentState) (ts : List String) :
    entitiesOk ts (filterEntityType s ts) := by
  intro p hp c hc k hk
  rcases filterEntityType_provenance hp with ⟨r, hr, hpe⟩
  rw [hpe] at hc
  exact (filterEntityBlock_char_ok s ts r.2 c hc k hk).1

theorem imagesOk_filterEntityType (s : ContentState) (ts : List String) :
    imagesOk (filterEntityType s ts) := by
  intro p hp htype c hc k hk
  rcases filterEntityType_provenance hp with ⟨r, hr, hpe⟩
  rw [hpe] at hc htype
  rw [filterEntityBlock_type] at htype
  intro himg
  exact htype ((filterEntityBlock_char_ok s ts r.2 c hc k hk).2 himg)

theorem depthOk_resetBlockType {s : ContentState} {maxL : Nat} {ts : List String}
    (h : depthOk maxL s) : depthOk maxL (resetBlockType s ts) := by
  intro p hp
  rcases resetBlockType_provenance hp with ⟨r, hr, hc | hc⟩ <;> rw [hc] <;> exact h r hr

theorem depthOk_filterInlineStyle {s : ContentState} {maxL : Nat} {ts : List String}
    (h : depthOk maxL s) : depthOk maxL (filterInlineStyle s ts) := by
  intro p hp
  rcases filterInlineStyle_provenance hp with ⟨r, hr, hc⟩
  rw [hc, filterStyleBlock_depth]
  exact h r hr

theorem depthOk_resetAtomicBlocks {s : ContentState} {maxL : Nat} {ts : List String}
    (h : depthOk maxL s) : depthOk maxL (resetAtomicBlocks s ts) := by
  intro p hp
  rcases resetAtomicBlocks_provenance hp with ⟨r, hr, hc | hc | hc | hc⟩ <;> rw [hc] <;>
    exact h r hr

theorem depthOk_filterEntityType {s : ContentState} {maxL : Nat} {ts : List String}
    (h : depthOk maxL s) : depthOk maxL (filterEntityType s ts) := by
  intro p hp
  rcases filterEntityType_provenance hp with ⟨r, hr, hc⟩
  rw [hc, filterEntityBlock_depth]
  exact h r hr

theorem typesOk_filterInlineStyle {s : ContentState} {ts ets : List String}
    (h : typesOk ts s) : typesOk ts (filterInlineStyle s ets) := by
  intro p hp
  rcases filterInlineStyle_provenance hp with ⟨r, hr, hc⟩
  rw [hc, filterStyleBlock_type]
  exact h r hr

theorem typesOk_resetAtomicBlocks {s : ContentState} {ts ets : List String}
    (hU : BLOCK_TYPE.UNSTYLED ∈ ts) (h : typesOk ts s) :
    typesOk ts (resetAtomicBlocks s ets) := by
  intro p hp
  rcases resetAtomicBlocks_provenance hp with ⟨r, hr, hc | hc | hc | hc⟩ <;> rw [hc]
  · exact h r hr
  · exact h r hr
  · exact hU
  · exact hU

theorem typesOk_filterEntityType {s : ContentState} {ts ets : List String}
    (h : typesOk ts s) : typesOk ts (filterEntityType s ets) := by
  intro p hp
  rcases filterEntityType_provenance hp with ⟨r, hr, hc⟩
  rw [hc, filterEntityBlock_type]
  exact h r hr

theorem stylesOk_resetAtomicBlocks {s : ContentState} {ts ets : List String}
    (h : stylesOk ts s) : stylesOk ts (resetAtomicBlocks s ets) := by
  intro p hp c hc t ht
  rcases resetAtomicBlocks_provenance hp with ⟨r, hr, hcase⟩
  have hsub : c ∈ r.2.characterList := by
    rcases hcase with h1 | h1 | h1 | h1 <;> rw [h1] at hc
    · exact hc
    · exact List.mem_of_mem_take (by simpa [normaliseAtomic] using hc)
    · exact hc
    · exact List.mem_of_mem_take (by simpa [normaliseAtomic] using hc)
  exact h r hr c hsub t ht

theorem stylesOk_filterEntityType {s : ContentState} {ts ets : List String}
    (h : stylesOk ts s) : stylesOk ts (filterEntityType s ets) := by
  intro p hp c hc t ht
  rcases filterEntityType_provenance hp with ⟨r, hr, hpe⟩
  rw [hpe, filterEntityBlock_characterList] at hc
  rcases List.mem_map.1 hc with ⟨c0, hc0, hce⟩
  exact h r hr c0 hc0 t (by rwa [← hce, filterEntityChar_style] at ht)

theorem lenOk_resetBlockDepth {s : ContentState} {maxL : Nat}
    (h : lenOk s) : lenOk (resetBlockDepth s maxL) := by
  intro p hp
  rcases resetBlockDepth_provenance hp with ⟨r, hr, hc | hc⟩ <;> rw [hc] <;> exact h r hr

theorem lenOk_resetBlockType {s : ContentState} {ts : List String}
    (h : lenOk s) : lenOk (resetBlockType s ts) := by
  intro p hp
  rcases resetBlockType_provenance hp with ⟨r, hr, hc | hc⟩ <;> rw [hc] <;> exact h r hr

theorem lenOk_filterInlineStyle {s : ContentState} {ts : List String}
    (h : lenOk s) : lenOk (filterInlineStyle s ts) := by
  intro p hp
  rcases filterInlineStyle_provenance hp with ⟨r, hr, hc⟩
  rw [hc, filterStyleBlock_characterList, List.length_map, filterStyleBlock_text]
  exact h r hr

/-! ### The pipeline as the composition of the five stages -/

theorem filterEditorState_eq (s : ContentState) (maxL : Nat) (hrf : Bool)
    (bt is et : List TypeDescriptor) :
    filterEditorState s maxL hrf bt is et =
      filterEntityType
        (resetAtomicBlocks
          (filterInlineStyle
            (resetBlockType (resetBlockDepth s maxL) (enabledBlockTypesOf bt))
            (is.map fun t => t.type))
          (enabledEntityTypesOf et hrf))
        (enabledEntityTypesOf et hrf) := rfl

theorem depthOk_filterEditorState (s : ContentState) (maxL : Nat) (hrf : Bool)
    (bt is et : List TypeDescriptor) :
    depthOk maxL (filterEditorState s maxL hrf bt is et) := by
  rw [filterEditorState_eq]
  exact depthOk_filterEntityType (depthOk_resetAtomicBlocks (depthOk_filterInlineStyle
    (depthOk_resetBlockType (depthOk_resetBlockDepth s maxL))))

theorem typesOk_filterEditorState (s : ContentState) (maxL : Nat) (hrf : Bool)
    (bt is et : List TypeDescriptor) :
    typesOk (enabledBlockTypesOf bt) (filterEditorState s maxL hrf bt is et) := by
  rw [filterEditorState_eq]
  have hU : BLOCK_TYPE.UNSTYLED ∈ enabledBlockTypesOf bt := by
    unfold enabledBlockTypesOf
    simp
  exact typesOk_filterEntityType (typesOk_resetAtomicBlocks hU
    (typesOk_filterInlineStyle (typesOk_resetBlockType hU)))

theorem stylesOk_filterEditorState (s : ContentState) (maxL : Nat) (hrf : Bool)
    (bt is et : List TypeDescriptor) :
    stylesOk (is.map fun t => t.type) (filterEditorState s maxL hrf bt is et) := by
  rw [filterEditorState_eq]
  exact stylesOk_filterEntityType (stylesOk_resetAtomicBlocks
    (stylesOk_filterInlineStyle _ _))

theorem entitiesOk_filterEditorState (s : ContentState) (maxL : Nat) (hrf : Bool)
    (bt is et : List TypeDescriptor) :
    entitiesOk (enabledEntityTypesOf et hrf) (filterEditorState s maxL hrf bt is et) := by
  rw [filterEditorState_eq]
  exact entitiesOk_filterEntityType _ _

theorem imagesOk_filterEditorState (s : ContentState) (maxL : Nat) (hrf : Bool)
    (bt is et : List TypeDescriptor) :
    imagesOk (filterEditorState s maxL hrf bt is et) := by
  rw [filterEditorState_eq]
  exact imagesOk_filterEntityType _ _

theorem filterEditorState_keys (s : ContentState) (maxL : Nat) (hrf : Bool)
    (bt is et : List TypeDescriptor) :
    (filterEditorState s maxL hrf bt is et).blockMap.map Prod.fst =
      s.blockMap.map Prod.fst := by
  rw [filterEditorState_eq, filterEntityType_keys, resetAtomicBlocks_keys,
    filterInlineStyle_keys, resetBlockType_keys, resetBlockDepth_keys]

/-! ### No-op behaviour on already-sanitized snapshots -/

theorem mergeBlockMap_self {m : BlockMap} (hnd : (m.map Prod.fst).Nodup) :
    mergeBlockMap m m = m := by
  unfold mergeBlockMap
  have h1 : ∀ p ∈ m, (match lookupKey m p.1 with
      | some b => (p.1, b)
      | none => p) = p := by
    intro p hp
    rw [lookupKey_of_mem_nodup hnd hp]
  have h2 : (m.filter fun p => (lookupKey m p.1).isNone) = [] := by
    rw [List.filter_eq_nil_iff]
    intro p hp
    rw [lookupKey_of_mem_nodup hnd hp]
    simp
  rw [List.map_congr_left h1, List.map_id', h2, List.append_nil]

theorem resetBlockDepth_noop {s : ContentState} {maxL : Nat}
    (h : depthOk maxL s) : resetBlockDepth s maxL = s := by
  have hfil : (s.blockMap.filter fun p => decide (maxL < p.2.depth)) = [] :=
    List.filter_eq_nil_iff.2 fun p hp => by simpa using Nat.not_lt.2 (h p hp)
  simp [resetBlockDepth, hfil]

theorem resetBlockType_noop {s : ContentState} {ts : List String}
    (h : typesOk ts s) : resetBlockType s ts = s := by
  have hfil : (s.blockMap.filter fun p => decide (p.2.type ∉ ts)) = [] :=
    List.filter_eq_nil_iff.2 fun p hp => by simpa using h p hp
  simp only [resetBlockType]
  rw [hfil, List.map_nil]
  simp

theorem filterStyleBlock_of_ok {ts : List String} {b : ContentBlock}
    (h : ∀ c ∈ b.characterList, ∀ t ∈ c.style, t ∈ ts) : filterStyleBlock ts b = b := by
  simp only [filterStyleBlock]
  rw [if_neg]
  push_neg
  exact h

theorem filterInlineStyle_noop {s : ContentState} {ts : List String}
    (hnd : (s.blockMap.map Prod.fst).Nodup) (h : stylesOk ts s) :
    filterInlineStyle s ts = s := by
  have hmap : (s.blockMap.map fun p => (p.1, filterStyleBlock ts p.2)) = s.blockMap := by
    have hall : ∀ p ∈ s.blockMap, (p.1, filterStyleBlock ts p.2) = p := by
      intro p hp
      rw [filterStyleBlock_of_ok (h p hp)]
    rw [List.map_congr_left hall, List.map_id']
  simp only [filterInlineStyle]
  rw [hmap, mergeBlockMap_self hnd]

theorem resetAtomicBlocks_noop {s : ContentState} {ts : List String}
    (hnd : (s.blockMap.map Prod.fst).Nodup) (hat : atomicPlaceholder s)
    (hent : entitiesOk ts s) : resetAtomicBlocks s ts = s := by
  have hnorm : atomicNormalised s.blockMap = [] := by
    unfold atomicNormalised
    rw [List.map_eq_nil_iff, List.filter_eq_nil_iff]
    intro p hp
    simp only [decide_eq_true_eq, not_and, not_not]
    intro hatomic
    exact hat p hp hatomic
  have hanm : atomicNormalisedMap s.blockMap = s.blockMap := by
    unfold atomicNormalisedMap
    rw [if_pos hnorm]
  have hreset : atomicReset s ts s.blockMap = [] := by
    unfold atomicReset
    rw [List.map_eq_nil_iff, List.filter_eq_nil_iff]
    intro p hp
    have hpm : p ∈ s.blockMap := List.mem_of_mem_filter hp
    simp only [atomicShouldReset, getEntityAt0]
    rcases hh : p.2.characterList.head? with _ | c
    · simp
    · rcases hc : c.entity with _ | k
      · simp [hc]
      · have hcm : c ∈ p.2.characterList := List.mem_of_mem_head? hh
        have hin := hent p hpm c hcm k (by rw [hc]; rfl)
        simp [hc, hin]
  simp only [resetAtomicBlocks]
  rw [hanm, hreset]
  simp only [if_pos]
  rw [mergeBlockMap_self hnd]

theorem filterEntityBlock_of_ok {s : ContentState} {ts : List String} {b : ContentBlock}
    (h : ∀ c ∈ b.characterList, ∀ k ∈ c.entity,
      getEntityType s k ∈ ts ∧
        (getEntityType s k = ENTITY_TYPE.IMAGE → b.type = BLOCK_TYPE.ATOMIC)) :
    filterEntityBlock s ts b = b := by
  simp only [filterEntityBlock]
  rw [if_neg]
  push_neg
  intro c hc
  exact filterEntityChar_of_ok (h c hc)

theorem filterEntityType_noop {s : ContentState} {ts : List String}
    (hnd : (s.blockMap.map Prod.fst).Nodup) (hent : entitiesOk ts s)
    (himg : imagesOk s) : filterEntityType s ts = s := by
  have hmap : (s.blockMap.map fun p => (p.1, filterEntityBlock s ts p.2)) = s.blockMap := by
    have hall : ∀ p ∈ s.blockMap, (p.1, filterEntityBlock s ts p.2) = p := by
      intro p hp
      rw [filterEntityBlock_of_ok]
      intro c hc k hk
      refine ⟨hent p hp c hc k hk, ?_⟩
      intro himgk
      by_contra hbt
      exact himg p hp hbt c hc k hk himgk
    rw [List.map_congr_left hall, List.map_id']
  simp only [filterEntityType]
  rw [hmap, mergeBlockMap_self hnd]

/-! ### Untouched and rewritten blocks, under unique keys -/

theorem resetBlockDepth_mem_untouched {s : ContentState} {maxL : Nat}
    (hnd : (s.blockMap.map Prod.fst).Nodup) {p : String × ContentBlock}
    (hp : p ∈ s.blockMap) (hle : p.2.depth ≤ maxL) :
    p ∈ (resetBlockDepth s maxL).blockMap := by
  simp only [resetBlockDepth]
  split
  · exact hp
  · unfold mergeBlockMap
    apply List.mem_append_left
    apply List.mem_map.2
    refine ⟨p, hp, ?_⟩
    rw [lookupKey_filterMap_of_neg hnd hp (by simpa using Nat.not_lt.2 hle)]

theorem resetBlockDepth_mem_rewritten {s : ContentState} {maxL : Nat}
    (hnd : (s.blockMap.map Prod.fst).Nodup) {p : String × ContentBlock}
    (hp : p ∈ s.blockMap) (hgt : maxL < p.2.depth) :
    (p.1, { p.2 with depth := maxL }) ∈ (resetBlockDepth s maxL).blockMap := by
  simp only [resetBlockDepth]
  split
  · next hempty =>
    exfalso
    have hfil : (s.blockMap.filter fun p => decide (maxL < p.2.depth)) = [] :=
      List.map_eq_nil_iff.1 hempty
    have : p ∈ s.blockMap.filter fun p => decide (maxL < p.2.depth) :=
      List.mem_filter.2 ⟨hp, by simpa using hgt⟩
    rw [hfil] at this
    simp at this
  · unfold mergeBlockMap
    apply List.mem_append_left
    apply List.mem_map.2
    refine ⟨p, hp, ?_⟩
    rw [lookupKey_filterMap_of_pos hnd hp (by simpa using hgt)]

theorem resetBlockType_mem_untouched {s : ContentState} {ts : List String}
    (hnd : (s.blockMap.map Prod.fst).Nodup) {p : String × ContentBlock}
    (hp : p ∈ s.blockMap) (hin : p.2.type ∈ ts) :
    p ∈ (resetBlockType s ts).blockMap := by
  simp only [resetBlockType]
  split
  · exact hp
  · unfold mergeBlockMap
    apply List.mem_append_left
    apply List.mem_map.2
    refine ⟨p, hp, ?_⟩
    rw [lookupKey_filterMap_of_neg hnd hp (by simpa using hin)]

theorem resetBlockType_mem_retyped {s : ContentState} {ts : List String}
    (hnd : (s.blockMap.map Prod.fst).Nodup) {p : String × ContentBlock}
    (hp : p ∈ s.blockMap) (hout : p.2.type ∉ ts) :
    (p.1, { p.2 with type := BLOCK_TYPE.UNSTYLED }) ∈ (resetBlockType s ts).blockMap := by
  simp only [resetBlockType]
  split
  · next hempty =>
    exfalso
    have hfil : (s.blockMap.filter fun p => decide (p.2.type ∉ ts)) = [] :=
      List.map_eq_nil_iff.1 hempty
    have : p ∈ s.blockMap.filter fun p => decide (p.2.type ∉ ts) :=
      List.mem_filter.2 ⟨hp, by simpa using hout⟩
    rw [hfil] at this
    simp at this
  · unfold mergeBlockMap
    apply List.mem_append_left
    apply List.mem_map.2
    refine ⟨p, hp, ?_⟩
    rw [lookupKey_filterMap_of_pos hnd hp (by simpa using hout)]

/-! ### Shape of the block map after the text-normalization half of
`resetAtomicBlocks` -/

theorem resetAtomicBlocks_no_demotion {s : ContentState} {ts : List String}
    (h : atomicReset s ts (atomicNormalisedMap s.blockMap) = []) :
    resetAtomicBlocks s ts =
      { s with blockMap := mergeBlockMap s.blockMap (atomicNormalisedMap s.blockMap) } := by
  simp only [resetAtomicBlocks]
  rw [if_pos h]

theorem atomicNormalisedMap_cases {m : BlockMap} {p : String × ContentBlock}
    (hp : p ∈ atomicNormalisedMap m) :
    (∃ r ∈ m, p.2 = normaliseAtomic r.2) ∨
      (p ∈ m ∧ ¬(p.2.type = BLOCK_TYPE.ATOMIC ∧ p.2.text ≠ " ")) := by
  unfold atomicNormalisedMap at hp
  split at hp
  · next hemp =>
    refine Or.inr ⟨hp, fun hcond => ?_⟩
    have : (p.1, normaliseAtomic p.2) ∈ atomicNormalised m := by
      unfold atomicNormalised
      exact List.mem_map.2 ⟨p, List.mem_filter.2 ⟨hp, by simpa using hcond⟩, rfl⟩
    rw [hemp] at this
    simp at this
  · rcases mergeBlockMap_mem_cases hp with h2 | h2
    · unfold atomicNormalised at h2
      rcases List.mem_map.1 h2 with ⟨r, hr, hre⟩
      exact Or.inl ⟨r, List.mem_of_mem_filter hr, by rw [← hre]⟩
    · refine Or.inr ⟨h2.1, fun hcond => ?_⟩
      have hmem : (p.1, normaliseAtomic p.2) ∈ atomicNormalised m := by
        unfold atomicNormalised
        exact List.mem_map.2 ⟨p, List.mem_filter.2 ⟨h2.1, by simpa using hcond⟩, rfl⟩
      have hsome : (lookupKey (atomicNormalised m) p.1).isSome :=
        lookupKey_isSome_iff.2 ⟨_, hmem, rfl⟩
      rw [h2.2] at hsome
      simp at hsome

theorem mergeNorm_atomic_shape {m : BlockMap}
    (hlen : ∀ p ∈ m, p.2.characterList.length = p.2.text.length)
    {p : String × ContentBlock} (hp : p ∈ mergeBlockMap m (atomicNormalisedMap m))
    (hat : p.2.type = BLOCK_TYPE.ATOMIC) :
    p.2.text = " " ∧ p.2.characterList.length ≤ 1 := by
  rcases mergeBlockMap_mem_cases hp with h | h
  · rcases atomicNormalisedMap_cases h with ⟨r, hr, hre⟩ | ⟨hm, hcond⟩
    · rw [hre]
      refine ⟨rfl, ?_⟩
      simp only [normaliseAtomic]
      rw [List.length_take]
      exact Nat.min_le_left 1 _
    · push_neg at hcond
      have htext : p.2.text = " " := hcond hat
      refine ⟨htext, ?_⟩
      rw [hlen p hm, htext]
      exact Nat.le_refl 1
  · exfalso
    have hk : p.1 ∈ (atomicNormalisedMap m).map Prod.fst := by
      rw [atomicNormalisedMap_keys]
      exact List.mem_map.2 ⟨p, h.1, rfl⟩
    rcases List.mem_map.1 hk with ⟨q, hq, hqe⟩
    have hsome : (lookupKey (atomicNormalisedMap m) p.1).isSome :=
      lookupKey_isSome_iff.2 ⟨q, hq, hqe⟩
    rw [h.2] at hsome
    simp at hsome

/-! ### The claims -/

/-- C3: every block in the output of `resetBlockDepth` — and of the full
pipeline — has depth at most `maxListNesting`; a block whose depth was
already within range is returned unchanged (same block value), and a
rewritten block keeps every field other than `depth`. -/
theorem C3_depth_bound (s : ContentState) (maxL : Nat)
    (hnd : (s.blockMap.map Prod.fst).Nodup) :
    (∀ p ∈ (resetBlockDepth s maxL).blockMap, p.2.depth ≤ maxL)
    ∧ (∀ p ∈ s.blockMap, p.2.depth ≤ maxL → p ∈ (resetBlockDepth s maxL).blockMap)
    ∧ (∀ p ∈ s.blockMap, maxL < p.2.depth →
        (p.1, { p.2 with depth := maxL }) ∈ (resetBlockDepth s maxL).blockMap)
    ∧ ∀ (hrf : Bool) (bt is et : List TypeDescriptor),
        depthOk maxL (filterEditorState s maxL hrf bt is et) := by
  refine ⟨depthOk_resetBlockDepth s maxL, ?_, ?_, ?_⟩
  · intro p hp hle
    exact resetBlockDepth_mem_untouched hnd hp hle
  · intro p hp hgt
    exact resetBlockDepth_mem_rewritten hnd hp hgt
  · intro hrf bt is et
    exact depthOk_filterEditorState s maxL hrf bt is et

/-- C3 witness: the depth bound evaluated on a concrete snapshot with an
over-deep block. -/
theorem C3_depth_bound_witness :
    (sampleRich.blockMap.map Prod.fst).Nodup
    ∧ depthOk 1 (filterEditorState sampleRich 1 true [⟨"paragraph"⟩] [⟨"BOLD"⟩]
        [⟨"IMAGE"⟩, ⟨"LINK"⟩]) :=
  ⟨by decide, (C3_depth_bound sampleRich 1 (by decide)).2.2.2 true [⟨"paragraph"⟩] [⟨"BOLD"⟩]
    [⟨"IMAGE"⟩, ⟨"LINK"⟩]⟩

/-- C4: every block in the pipeline's output has a type in
`allowedBlockTypes ∪ \x7bunstyled, atomic\x7d`; in `resetBlockType` a block whose
type is in the enabled set is kept as-is, and a block whose type is
outside it is retyped to unstyled with text, characters and depth
untouched. -/
theorem C4_type_closure (s : ContentState) (maxL : Nat) (hrf : Bool)
    (bt is et : List TypeDescriptor) (ts : List String)
    (hnd : (s.blockMap.map Prod.fst).Nodup) :
    typesOk (enabledBlockTypesOf bt) (filterEditorState s maxL hrf bt is et)
    ∧ (∀ p ∈ s.blockMap, p.2.type ∈ ts → p ∈ (resetBlockType s ts).blockMap)
    ∧ (∀ p ∈ s.blockMap, p.2.type ∉ ts →
        (p.1, { p.2 with type := BLOCK_TYPE.UNSTYLED }) ∈ (resetBlockType s ts).blockMap) := by
  refine ⟨typesOk_filterEditorState s maxL hrf bt is et, ?_, ?_⟩
  · intro p hp hin
    exact resetBlockType_mem_untouched hnd hp hin
  · intro p hp hout
    exact resetBlockType_mem_retyped hnd hp hout

/-- C4 witness: type closure evaluated on a concrete snapshot with a
disallowed block type. -/
theorem C4_type_closure_witness :
    (sampleRich.blockMap.map Prod.fst).Nodup
    ∧ typesOk (enabledBlockTypesOf [⟨"paragraph"⟩])
        (filterEditorState sampleRich 1 true [⟨"paragraph"⟩] [⟨"BOLD"⟩]
          [⟨"IMAGE"⟩, ⟨"LINK"⟩]) :=
  ⟨by decide, (C4_type_closure sampleRich 1 true [⟨"paragraph"⟩] [⟨"BOLD"⟩]
    [⟨"IMAGE"⟩, ⟨"LINK"⟩] ["paragraph"] (by decide)).1⟩

/-- C5: every character of every block in the pipeline's output has a
style set contained in `allowedInlineStyles`; at the character level a
style survives `filterStyleChar` exactly when it was present and is
allowed. -/
theorem C5_style_closure (s : ContentState) (maxL : Nat) (hrf : Bool)
    (bt is et : List TypeDescriptor) (ts : List String) (c : CharacterMetadata)
    (t : String) :
    stylesOk (is.map fun d => d.type) (filterEditorState s maxL hrf bt is et)
    ∧ (t ∈ (filterStyleChar ts c).style ↔ t ∈ c.style ∧ t ∈ ts) := by
  constructor
  · have h := stylesOk_filterEditorState s maxL hrf bt is et
    exact h
  · exact filterStyleChar_style_mem ts c t

/-- C5 witness: style closure evaluated on a concrete snapshot carrying a
disallowed style. -/
theorem C5_style_closure_witness :
    stylesOk (([⟨"BOLD"⟩] : List TypeDescriptor).map fun d => d.type)
      (filterEditorState sampleRich 1 true [⟨"paragraph"⟩] [⟨"BOLD"⟩]
        [⟨"IMAGE"⟩, ⟨"LINK"⟩])
    ∧ ("BOLD" ∈ (filterStyleChar ["BOLD"]
          { style := ["BOLD", "STRIKE"], entity := none }).style ↔
        "BOLD" ∈ ({ style := ["BOLD", "STRIKE"], entity := none } :
          CharacterMetadata).style ∧ "BOLD" ∈ ["BOLD"]) :=
  C5_style_closure sampleRich 1 true [⟨"paragraph"⟩] [⟨"BOLD"⟩] [⟨"IMAGE"⟩, ⟨"LINK"⟩]
    ["BOLD"] { style := ["BOLD", "STRIKE"], entity := none } "BOLD"

/-- C6: every character of the pipeline's output that still carries an
entity reference points at an entity whose type is in the effective
allowed set, which is `allowedEntityTypes` extended with the
horizontal-rule type exactly when `enableHorizontalRule` is set; a
reference to a disallowed entity is cleared by `filterEntityChar`. -/
theorem C6_entity_closure (s : ContentState) (maxL : Nat) (hrf : Bool)
    (bt is et : List TypeDescriptor) (ts : List String) (bType : String)
    (c : CharacterMetadata) (k : Nat) :
    entitiesOk (enabledEntityTypesOf et hrf) (filterEditorState s maxL hrf bt is et)
    ∧ enabledEntityTypesOf et hrf =
        et.map (fun d => d.type) ++ (if hrf then [ENTITY_TYPE.HORIZONTAL_RULE] else [])
    ∧ (c.entity = some k → getEntityType s k ∉ ts →
        (filterEntityChar s ts bType c).entity = none) :=
  ⟨entitiesOk_filterEditorState s maxL hrf bt is et, rfl,
    fun hc hdis => filterEntityChar_clears hc hdis⟩

/-- C6 witness: entity closure evaluated on a concrete snapshot whose
disallowed entity reference is cleared. -/
theorem C6_entity_closure_witness :
    entitiesOk (enabledEntityTypesOf [⟨"IMAGE"⟩, ⟨"LINK"⟩] true)
      (filterEditorState sampleRich 1 true [⟨"paragraph"⟩] [⟨"BOLD"⟩]
        [⟨"IMAGE"⟩, ⟨"LINK"⟩])
    ∧ (filterEntityChar sampleRich ["LINK"] "paragraph"
        { style := [], entity := some 1 }).entity = none :=
  ⟨(C6_entity_closure sampleRich 1 true [⟨"paragraph"⟩] [⟨"BOLD"⟩] [⟨"IMAGE"⟩, ⟨"LINK"⟩]
      ["LINK"] "paragraph" { style := [], entity := some 1 } 1).1,
    (C6_entity_closure sampleRich 1 true [⟨"paragraph"⟩] [⟨"BOLD"⟩] [⟨"IMAGE"⟩, ⟨"LINK"⟩]
      ["LINK"] "paragraph" { style := [], entity := some 1 } 1).2.2 rfl (by decide)⟩

/-- C7: no character of a non-atomic block in the pipeline's output
references an image-type entity; `filterEntityChar` clears such an inline
image reference even when the image type is allowed, leaving the
character's styles and the block's text untouched. -/
theorem C7_image_containment (s : ContentState) (maxL : Nat) (hrf : Bool)
    (bt is et : List TypeDescriptor) (ts : List String) (bType : String)
    (c : CharacterMetadata) (k : Nat) (b : ContentBlock) :
    imagesOk (filterEditorState s maxL hrf bt is et)
    ∧ (c.entity = some k → getEntityType s k = ENTITY_TYPE.IMAGE →
        bType ≠ BLOCK_TYPE.ATOMIC → (filterEntityChar s ts bType c).entity = none)
    ∧ (filterEntityChar s ts bType c).style = c.style
    ∧ (filterEntityBlock s ts b).text = b.text :=
  ⟨imagesOk_filterEditorState s maxL hrf bt is et,
    fun hc himg hbt => filterEntityChar_clears_image hc himg hbt,
    filterEntityChar_style s ts bType c, filterEntityBlock_text s ts b⟩

/-- C7 witness: an inline image reference in a paragraph block is cleared
even though the image type is allowed. -/
theorem C7_image_containment_witness :
    imagesOk (filterEditorState sampleRich 1 true [⟨"paragraph"⟩] [⟨"BOLD"⟩]
        [⟨"IMAGE"⟩, ⟨"LINK"⟩])
    ∧ (filterEntityChar sampleRich ["IMAGE"] "paragraph"
        { style := [], entity := some 2 }).entity = none :=
  ⟨(C7_image_containment sampleRich 1 true [⟨"paragraph"⟩] [⟨"BOLD"⟩] [⟨"IMAGE"⟩, ⟨"LINK"⟩]
      ["IMAGE"] "paragraph" { style := [], entity := some 2 } 2 sampleBlock).1,
    (C7_image_containment sampleRich 1 true [⟨"paragraph"⟩] [⟨"BOLD"⟩] [⟨"IMAGE"⟩, ⟨"LINK"⟩]
      ["IMAGE"] "paragraph" { style := [], entity := some 2 } 2 sampleBlock).2.1 rfl
      (by decide) (by decide)⟩

/-- C9: each of the five stages, and the full pipeline, preserves the
sequence of block keys exactly — no block is inserted, deleted, split or
merged. -/
theorem C9_keys_preserved (s : ContentState) (maxL : Nat) (hrf : Bool)
    (bt is et : List TypeDescriptor) (ts : List String) :
    (resetBlockDepth s maxL).blockMap.map Prod.fst = s.blockMap.map Prod.fst
    ∧ (resetBlockType s ts).blockMap.map Prod.fst = s.blockMap.map Prod.fst
    ∧ (filterInlineStyle s ts).blockMap.map Prod.fst = s.blockMap.map Prod.fst
    ∧ (resetAtomicBlocks s ts).blockMap.map Prod.fst = s.blockMap.map Prod.fst
    ∧ (filterEntityType s ts).blockMap.map Prod.fst = s.blockMap.map Prod.fst
    ∧ (filterEditorState s maxL hrf bt is et).blockMap.map Prod.fst =
        s.blockMap.map Prod.fst :=
  ⟨resetBlockDepth_keys s maxL, resetBlockType_keys s ts, filterInlineStyle_keys s ts,
    resetAtomicBlocks_keys s ts, filterEntityType_keys s ts,
    filterEditorState_keys s maxL hrf bt is et⟩

/-- C8 counterexample: a snapshot satisfying the depth bound, type
closure, style closure, entity closure, image containment and the §8
atomic shape (text length 1, one character entry) on which the pipeline
is nevertheless not a no-op — its atomic block's text `"x"` is rewritten
to the placeholder. -/
theorem C8_counterexample :
    ((sampleAtomicX.blockMap.map Prod.fst).Nodup
      ∧ depthOk 0 sampleAtomicX
      ∧ typesOk (enabledBlockTypesOf []) sampleAtomicX
      ∧ stylesOk (([] : List TypeDescriptor).map fun d => d.type) sampleAtomicX
      ∧ entitiesOk (enabledEntityTypesOf [] false) sampleAtomicX
      ∧ imagesOk sampleAtomicX
      ∧ atomicShapeLen sampleAtomicX)
    ∧ filterEditorState sampleAtomicX 0 false [] [] [] ≠ sampleAtomicX :=
  ⟨by decide, by decide⟩

/-- C8 (amended): if a snapshot with distinct block keys satisfies the
depth bound, type closure, style closure, entity closure and image
containment, and the text of every atomic block is exactly the single
placeholder character, then the pipeline returns the snapshot unchanged. -/
theorem C8_stability_amended (s : ContentState) (maxL : Nat) (hrf : Bool)
    (bt is et : List TypeDescriptor)
    (hnd : (s.blockMap.map Prod.fst).Nodup)
    (hdep : depthOk maxL s)
    (htyp : typesOk (enabledBlockTypesOf bt) s)
    (hsty : stylesOk (is.map fun t => t.type) s)
    (hent : entitiesOk (enabledEntityTypesOf et hrf) s)
    (himg : imagesOk s)
    (hat : atomicPlaceholder s) :
    filterEditorState s maxL hrf bt is et = s := by
  rw [filterEditorState_eq, resetBlockDepth_noop hdep, resetBlockType_noop htyp,
    filterInlineStyle_noop hnd hsty, resetAtomicBlocks_noop hnd hat hent,
    filterEntityType_noop hnd hent himg]

/-- C8 witness: the pipeline is a no-op on a concrete sanitized
snapshot. -/
theorem C8_stability_amended_witness :
    ((sampleClean.blockMap.map Prod.fst).Nodup
      ∧ depthOk 0 sampleClean
      ∧ typesOk (enabledBlockTypesOf []) sampleClean
      ∧ stylesOk (([⟨"BOLD"⟩] : List TypeDescriptor).map fun t => t.type) sampleClean
      ∧ entitiesOk (enabledEntityTypesOf [⟨"LINK"⟩] false) sampleClean
      ∧ imagesOk sampleClean
      ∧ atomicPlaceholder sampleClean)
    ∧ filterEditorState sampleClean 0 false [] [⟨"BOLD"⟩] [⟨"LINK"⟩] = sampleClean :=
  ⟨by decide,
    C8_stability_amended sampleClean 0 false [] [⟨"BOLD"⟩] [⟨"LINK"⟩] (by decide) (by decide)
      (by decide) (by decide) (by decide) (by decide) (by decide)⟩

/-- C2 counterexample: on a snapshot holding an atomic block with empty
text and an empty character list, the pipeline's output atomic block does
not have exactly one character-metadata entry. -/
theorem C2_counterexample :
    ¬ (∀ p ∈ (filterEditorState sampleAtomicEmpty 4 false [] [] []).blockMap,
        p.2.type = BLOCK_TYPE.ATOMIC →
          p.2.text.length = 1 ∧ p.2.characterList.length = 1) := by
  decide

/-- C2 (amended): when every block's character-list length matches its
text length and the `resetAtomicBlocks` pass demotes no atomic block,
every atomic block in the pipeline's output has the single placeholder
character as text and at most one character-metadata entry; the
normalization rewrite itself sets the text to the placeholder and
truncates the character list to its first entry — exactly one entry when
the incoming list is nonempty. -/
theorem C2_atomic_shape_amended (s : ContentState) (maxL : Nat) (hrf : Bool)
    (bt is et : List TypeDescriptor) (b : ContentBlock)
    (hlen : lenOk s)
    (hnodem : atomicReset
        (filterInlineStyle (resetBlockType (resetBlockDepth s maxL) (enabledBlockTypesOf bt))
          (is.map fun t => t.type))
        (enabledEntityTypesOf et hrf)
        (atomicNormalisedMap
          (filterInlineStyle (resetBlockType (resetBlockDepth s maxL) (enabledBlockTypesOf bt))
            (is.map fun t => t.type)).blockMap) = []) :
    (∀ p ∈ (filterEditorState s maxL hrf bt is et).blockMap,
        p.2.type = BLOCK_TYPE.ATOMIC → p.2.text = " " ∧ p.2.characterList.length ≤ 1)
    ∧ (normaliseAtomic b).text = " "
    ∧ (normaliseAtomic b).characterList = b.characterList.take 1
    ∧ (b.characterList ≠ [] → (normaliseAtomic b).characterList.length = 1) := by
  have hlen3 : lenOk (filterInlineStyle (resetBlockType (resetBlockDepth s maxL)
      (enabledBlockTypesOf bt)) (is.map fun t => t.type)) :=
    lenOk_filterInlineStyle (lenOk_resetBlockType (lenOk_resetBlockDepth hlen))
  refine ⟨?_, rfl, rfl, ?_⟩
  · intro p hp hat
    rw [filterEditorState_eq, resetAtomicBlocks_no_demotion hnodem] at hp
    rcases filterEntityType_provenance hp with ⟨r, hr, hpe⟩
    have hat2 : r.2.type = BLOCK_TYPE.ATOMIC := by
      rw [hpe, filterEntityBlock_type] at hat
      exact hat
    have hshape := mergeNorm_atomic_shape hlen3 hr hat2
    constructor
    · rw [hpe, filterEntityBlock_text]
      exact hshape.1
    · rw [hpe, filterEntityBlock_characterList, List.length_map]
      exact hshape.2
  · intro hne
    simp only [normaliseAtomic]
    rw [List.length_take]
    have hpos : 0 < b.characterList.length := List.length_pos.2 hne
    omega

/-- C2 witness: amended atomic shape at a concrete snapshot whose atomic
block carries garbled text. -/
theorem C2_atomic_shape_amended_witness :
    (lenOk sampleAtomicX
      ∧ atomicReset
          (filterInlineStyle (resetBlockType (resetBlockDepth sampleAtomicX 0)
            (enabledBlockTypesOf [])) (([] : List TypeDescriptor).map fun t => t.type))
          (enabledEntityTypesOf [] false)
          (atomicNormalisedMap
            (filterInlineStyle (resetBlockType (resetBlockDepth sampleAtomicX 0)
              (enabledBlockTypesOf [])) (([] : List TypeDescriptor).map fun t => t.type)).blockMap)
        = [])
    ∧ ((∀ p ∈ (filterEditorState sampleAtomicX 0 false [] [] []).blockMap,
          p.2.type = BLOCK_TYPE.ATOMIC → p.2.text = " " ∧ p.2.characterList.length ≤ 1)
        ∧ (normaliseAtomic sampleBlock).text = " "
        ∧ (normaliseAtomic sampleBlock).characterList = sampleBlock.characterList.take 1
        ∧ (sampleBlock.characterList ≠ [] →
            (normaliseAtomic sampleBlock).characterList.length = 1)) :=
  ⟨⟨by decide, by decide⟩,
    C2_atomic_shape_amended sampleAtomicX 0 false [] [] [] sampleBlock (by decide) (by decide)⟩

/-- C1: the pipeline is not idempotent — on `sampleMixed` (an atomic
block needing text normalization next to an atomic block being demoted)
the second application changes the snapshot again, because
`resetAtomicBlocks` merges its demoted blocks into the original block map
and thereby drops the text normalization of the other atomic block. -/
theorem C1_not_idempotent :
    filterEditorState (filterEditorState sampleMixed 4 false [] [] []) 4 false [] [] [] ≠
      filterEditorState sampleMixed 4 false [] [] [] := by
  decide

/-- C10: on a snapshot whose only block is an empty atomic block, the
pipeline outputs that block with placeholder text and zero
character-metadata entries, as the claim states; but on `sampleMixed`,
where another atomic block is demoted in the same pass, the empty atomic
block's normalization is lost and its text stays empty — contradicting
the claim's universal statement. -/
theorem C10_empty_atomic_normalisation :
    lookupKey (filterEditorState sampleAtomicEmpty 4 false [] [] []).blockMap "a" =
      some { type := BLOCK_TYPE.ATOMIC, depth := 0, text := " ", characterList := [] }
    ∧ lookupKey (filterEditorState sampleMixed 4 false [] [] []).blockMap "a" =
      some { type := BLOCK_TYPE.ATOMIC, depth := 0, text := "", characterList := [] } :=
  ⟨by decide, by decide⟩

end Draftail
